import Mathlib

/-!
Shallow embedding of the categorical/enum column core of
`crates/polars-core/src/chunked_array/logical/categorical/mod.rs`.

Physical u32 codes are embedded as `Nat`, the 128-bit content hash as a
`Nat` reduced mod 2^128, hash maps (`PlHashMap`) as association lists in
insertion order where a later binding for the same key overwrites an
earlier one (mirroring `FromIterator for HashMap`), and a nullable
multi-chunk u32 array as a list of chunks of `Option Nat`.
-/

namespace PolarsCat

/-- Sortedness flag carried by a physical array (`IsSorted` in the source). -/
inductive IsSorted
  | Ascending
  | Descending
  | Not
deriving DecidableEq, Repr

/-- Ordering of a categorical dtype (`CategoricalOrdering` in the source). -/
inductive CategoricalOrdering
  | Physical
  | Lexical
deriving DecidableEq, Repr

/-- Reverse mapping from physical code to category string (`RevMapping` in
`revmap.rs`): `Local(categories, hash)` where code `i` resolves to
`categories[i]`, or `Global(map, categories, uuid)` where a physical code is
a cache code translated to a local position by `map`. -/
inductive RevMapping
  | Local (categories : List String) (hash : Nat)
  | Global (map : List (Nat × Nat)) (categories : List String) (uuid : Nat)
deriving DecidableEq, Repr

/-- Lookup in a hash map built from an association list in insertion order:
a later binding for the same key overwrites an earlier one, so the LAST
matching entry wins (`HashMap::get` after `collect`). -/
def hmGet {α β : Type} [DecidableEq α] : List (α × β) → α → Option β
  | [], _ => none
  | p :: rest, k =>
    match hmGet rest k with
    | some v => some v
    | none => if p.1 = k then some p.2 else none

/-- Modelled from the spec: the 128-bit content hash of a category sequence
(`RevMapping::build_local` "computes and stores the content hash of the
category sequence"; the hasher itself lives outside `src/`). A concrete
deterministic polynomial hash reduced mod 2^128. -/
def catHash (categories : List String) : Nat :=
  categories.foldl
    (fun h s => (h * 1000003 + s.foldl (fun a c => a * 31 + c.toNat) 7) % (2 ^ 128))
    5381

/-- Modelled from the spec: `RevMapping::build_local` stores the categories
together with their content hash. -/
def RevMapping.build_local (categories : List String) : RevMapping :=
  .Local categories (catHash categories)

/-- Categories array held by a reverse mapping (`RevMapping::get_categories`). -/
def RevMapping.get_categories : RevMapping → List String
  | .Local categories _ => categories
  | .Global _ categories _ => categories

/-- Modelled from the spec: resolving a physical code to its category string
(`RevMapping::get` / `get_unchecked`, §4.1 of the spec): Local codes index
`categories` directly; Global codes go through `code_to_local_index` first.
Total with a junk default; the column invariant (§3) keeps real calls in
bounds. -/
def RevMapping.get (r : RevMapping) (idx : Nat) : String :=
  match r with
  | .Local categories _ => categories.getD idx ""
  | .Global m categories _ => categories.getD ((hmGet m idx).getD 0) ""

/-- Nullable multi-chunk u32 array (`UInt32Chunked`): a name, chunks of
optional values, and the sorted statistics flag. -/
structure UInt32Chunked where
  name : String
  chunks : List (List (Option Nat))
  sorted : IsSorted
deriving DecidableEq, Repr

/-- Flattened element sequence of a chunked array. -/
def UInt32Chunked.values (a : UInt32Chunked) : List (Option Nat) :=
  a.chunks.flatten

def UInt32Chunked.len (a : UInt32Chunked) : Nat :=
  a.values.length

def UInt32Chunked.null_count (a : UInt32Chunked) : Nat :=
  (a.values.filter (fun o => o.isNone)).length

def UInt32Chunked.has_nulls (a : UInt32Chunked) : Bool :=
  a.null_count != 0

/-- `ChunkedArray::apply`: map a function over the non-null values,
preserving name, chunking and null slots; statistics flags are not carried
over to the freshly built array. -/
def UInt32Chunked.apply (a : UInt32Chunked) (f : Nat → Nat) : UInt32Chunked :=
  { name := a.name, chunks := a.chunks.map (List.map (Option.map f)), sorted := .Not }

/-- `UInt32Chunked::from_chunks`: rebuild an array around existing chunks
(the zero-copy path of the u32 cast); flags start at their default. -/
def UInt32Chunked.from_chunks (name : String) (chunks : List (List (Option Nat))) :
    UInt32Chunked :=
  { name := name, chunks := chunks, sorted := .Not }

/-- Collecting an iterator of optional values into a fresh single-chunk
array (`collect::<UInt32Chunked>()`): default (empty) name, default flags. -/
def UInt32Chunked.from_iter (vals : List (Option Nat)) : UInt32Chunked :=
  { name := "", chunks := [vals], sorted := .Not }

def UInt32Chunked.set_sorted_flag (a : UInt32Chunked) (s : IsSorted) : UInt32Chunked :=
  { a with sorted := s }

/-- The categorical column (`CategoricalChunked`): physical codes plus the
logical dtype, flattened here into the dtype tag (`is_enum`), the reverse
mapping and the ordering, plus the `ORIGINAL` bit of `bit_settings`
(`flag_original`, the fast-unique flag). Columns reaching the operations
under proof always carry a mapping, so `rev_map` is total here; the
transient absent-mapping state makes the source accessor `get_rev_map`
fault. -/
structure CategoricalChunked where
  physical : UInt32Chunked
  is_enum : Bool
  rev_map : RevMapping
  ord : CategoricalOrdering
  flag_original : Bool
deriving DecidableEq, Repr

def CategoricalChunked.len (c : CategoricalChunked) : Nat :=
  c.physical.len

def CategoricalChunked.null_count (c : CategoricalChunked) : Nat :=
  c.physical.null_count

def CategoricalChunked.get_ordering (c : CategoricalChunked) : CategoricalOrdering :=
  c.ord

def CategoricalChunked.get_rev_map (c : CategoricalChunked) : RevMapping :=
  c.rev_map

/-- `CategoricalChunked::from_cats_and_rev_map_unchecked`: wraps the codes
and mapping into a column; `bit_settings` starts at its default, so the
fast-unique flag is cleared. -/
def from_cats_and_rev_map_unchecked (idx : UInt32Chunked) (rev_map : RevMapping)
    (is_enum : Bool) (ordering : CategoricalOrdering) : CategoricalChunked :=
  { physical := idx, is_enum := is_enum, rev_map := rev_map, ord := ordering,
    flag_original := false }

def CategoricalChunked.set_fast_unique (c : CategoricalChunked) (toggle : Bool) :
    CategoricalChunked :=
  { c with flag_original := toggle }

/-- `CategoricalChunked::_can_fast_unique`: the ORIGINAL bit, one chunk and
zero nulls. -/
def CategoricalChunked._can_fast_unique (c : CategoricalChunked) : Bool :=
  c.flag_original && c.physical.chunks.length == 1 && c.null_count == 0

def CategoricalChunked.uses_lexical_ordering (c : CategoricalChunked) : Bool :=
  decide (c.get_ordering = CategoricalOrdering.Lexical)

/-- `CategoricalChunked::set_ordering`: rewrite the ordering inside the
dtype in place; unless told to keep it, clear the fast-unique flag. -/
def set_ordering (c : CategoricalChunked) (ordering : CategoricalOrdering)
    (keep_fast_unique : Bool) : CategoricalChunked :=
  let c2 := { c with ord := ordering }
  if keep_fast_unique then c2 else c2.set_fast_unique false

/-- `CategoricalChunked::to_local`: Global codes are remapped through
`code_to_local_index` onto a fresh Local mapping built from the same
categories; a Local non-enum column is returned as a cheap clone; a Local
enum column is cloned with only the dtype tag changed to Categorical. -/
def to_local (c : CategoricalChunked) : CategoricalChunked :=
  match c.rev_map with
  | .Local _ _ =>
    if c.is_enum then { c with is_enum := false } else c
  | .Global physical_map categories _ =>
    let local_rev_map := RevMapping.build_local categories
    let local_ca := c.physical.apply (fun v => (hmGet physical_map v).getD 0)
    let out := from_cats_and_rev_map_unchecked local_ca local_rev_map false c.get_ordering
    out.set_fast_unique c._can_fast_unique

/-- `CategoricalChunked::iter_str`: the lazy string-decoding view, as the
sequence it produces — each code resolved through the reverse mapping,
nulls passed through. -/
def iter_str (c : CategoricalChunked) : List (Option String) :=
  c.physical.values.map (fun o => o.map c.rev_map.get)

/-- Recoverable error conditions of this core (§7 of the spec): compute
errors with their message, and the cache-mode-mismatch condition raised by
`polars_ensure!(using_string_cache(), string_cache_mismatch)`. -/
inductive PolarsError
  | ComputeError (msg : String)
  | StringCacheMismatch
deriving DecidableEq, Repr

/-- Modelled from the spec: the process-wide string cache (§4.2; its hash
table lives outside `src/`), as the enabled switch plus the interned
strings in interning order — the cache code of a string is its position in
`interned`. -/
structure StringCache where
  enabled : Bool
  interned : List String
deriving DecidableEq, Repr

/-- Modelled from the spec: idempotent interning of a category sequence —
each string absent from the cache is appended once, so codes of already
present strings are stable. -/
def internList (l : List String) (cats : List String) : List String :=
  cats.foldl (fun acc s => if s ∈ acc then acc else acc ++ [s]) l

/-- Modelled from the spec: `intern_all(categories)` interns every category
and returns the updated cache together with `code_to_local_index`, the map
from returned cache code to local position (§4.2). -/
def intern_all (cache : StringCache) (cats : List String) :
    StringCache × List (Nat × Nat) :=
  let l := internList cache.interned cats
  (⟨cache.enabled, l⟩, cats.enum.map (fun p => (l.indexOf p.2, p.1)))

/-- Modelled from the spec: `from_keys_and_values_global` (in `from.rs`,
outside `src/`), per §4.4 `to_global`: intern the local categories, invert
`code_to_local_index` into local-position → cache-code, remap every
physical index through it (nulls pass through), and wrap the result in a
Global mapping. -/
def from_keys_and_values_global (cache : StringCache) (c : CategoricalChunked)
    (categories : List String) : StringCache × CategoricalChunked :=
  let r := intern_all cache categories
  let inv := r.2.map (fun p => (p.2, p.1))
  let phys := c.physical.apply (fun v => (hmGet inv v).getD 0)
  (r.1,
   from_cats_and_rev_map_unchecked phys
     (RevMapping.Global r.2 categories r.1.interned.length) false c.get_ordering)

/-- `CategoricalChunked::to_global`: requires the cache enabled, else the
cache-mode-mismatch error; already-Global columns are returned unchanged;
Local columns are re-keyed through the cache. The cache is threaded
explicitly since interning may grow it. -/
def to_global (cache : StringCache) (c : CategoricalChunked) :
    StringCache × Except PolarsError CategoricalChunked :=
  if cache.enabled then
    match c.rev_map with
    | .Global _ _ _ => (cache, .ok c)
    | .Local categories _ =>
      let r := from_keys_and_values_global cache c categories
      (r.1, .ok r.2)
  else (cache, .error .StringCacheMismatch)

/-- General path of `to_enum`: build old category → old code and compose it
with new category → new code into an old-code → new-code map, then remap
every physical index, sending codes without an entry (and nulls) to null. -/
def to_enum_general (c : CategoricalChunked) (categories : List String) (hash : Nat) :
    CategoricalChunked :=
  let old_categories := c.rev_map.get_categories
  let old_idx_map : List (String × Nat) :=
    List.zip old_categories (List.range old_categories.length)
  let idx_map : List (Nat × Nat) :=
    categories.enum.filterMap
      (fun p => (hmGet old_idx_map p.2).map (fun old_idx => (old_idx, p.1)))
  let new_phys :=
    UInt32Chunked.from_iter
      (c.physical.values.map (fun o => o.bind (fun v => hmGet idx_map v)))
  from_cats_and_rev_map_unchecked new_phys (RevMapping.Local categories hash) true
    c.get_ordering

/-- `CategoricalChunked::to_enum`: fast path when the source mapping is
Local with the same content hash (reuse the physical array and mapping,
only the dtype tag becomes Enum), general remapping path otherwise. -/
def to_enum (c : CategoricalChunked) (categories : List String) (hash : Nat) :
    CategoricalChunked :=
  match c.rev_map with
  | .Local _ cur_hash =>
    if hash = cur_hash then
      from_cats_and_rev_map_unchecked c.physical c.rev_map true c.get_ordering
    else to_enum_general c categories hash
  | .Global _ _ _ => to_enum_general c categories hash

/-- String column produced by the cast to String. -/
structure StringChunked where
  name : String
  data : List (Option String)
deriving DecidableEq, Repr

/-- Null-free fast loop of the String cast: iterate the raw values and
resolve each one. -/
def cast_string_no_null (c : CategoricalChunked) : StringChunked :=
  { name := c.physical.name,
    data := (c.physical.values.filterMap id).map (fun idx => some (c.rev_map.get idx)) }

/-- Null-aware loop of the String cast: resolve each value, pass nulls
through. -/
def cast_string_nulls (c : CategoricalChunked) : StringChunked :=
  { name := c.physical.name,
    data := c.physical.values.map (fun o => o.map c.rev_map.get) }

/-- The series wrapper returned by `cast_with_options`, restricted to the
result types the embedded cast arms produce. -/
inductive Series
  | cat (c : CategoricalChunked)
  | str (s : StringChunked)
  | u32 (a : UInt32Chunked)
deriving DecidableEq, Repr

deriving instance DecidableEq for Except

def Series.with_name (s : Series) (name : String) : Series :=
  match s with
  | .cat c => .cat { c with physical := { c.physical with name := name } }
  | .str sc => .str { sc with name := name }
  | .u32 a => .u32 { a with name := name }

/-- Cast targets handled by the embedded arms of
`CategoricalChunked::cast_with_options`. -/
inductive DataType
  | String
  | UInt32
  | Enum (rev_map : Option RevMapping) (ord : CategoricalOrdering)
  | Categorical (rev_map : Option RevMapping) (ord : CategoricalOrdering)
deriving DecidableEq, Repr

/-- `CategoricalChunked::cast_with_options`, the dispatcher arms for
String, UInt32, Enum and Categorical targets. The cache is threaded
because the Enum-source → Categorical arm consults `using_string_cache()`
and may intern through `to_global`. -/
def cast_with_options (cache : StringCache) (c : CategoricalChunked)
    (dtype : DataType) : StringCache × Except PolarsError Series :=
  match dtype with
  | .String =>
    if !c.physical.has_nulls then
      (cache, .ok (.str (cast_string_no_null c)))
    else
      (cache, .ok (.str (cast_string_nulls c)))
  | .UInt32 =>
    (cache, .ok (.u32 (UInt32Chunked.from_chunks c.physical.name c.physical.chunks)))
  | .Enum (some rm) ordering =>
    match rm with
    | .Local categories hash =>
      (cache,
       .ok (Series.with_name (.cat (set_ordering (to_enum c categories hash) ordering true))
             c.physical.name))
    | .Global _ _ _ =>
      (cache, .error (.ComputeError "can not cast to enum with global mapping"))
  | .Enum none _ =>
    (cache, .error (.ComputeError "can not cast to enum without categories present"))
  | .Categorical rm ordering =>
    if c.is_enum && rm.isNone then
      if cache.enabled then
        match to_global cache c with
        | (cache2, .ok g) => (cache2, .ok (.cat (set_ordering g ordering true)))
        | (cache2, .error e) => (cache2, .error e)
      else
        (cache, .ok (.cat (set_ordering (to_local c) ordering true)))
    else
      let ca := set_ordering c ordering true
      let ca2 :=
        if ca.uses_lexical_ordering then
          { ca with physical := ca.physical.set_sorted_flag .Not }
        else ca
      (cache, .ok (.cat ca2))

/-- C10: every column returned by `to_enum` has its fast-unique flag
cleared — on the hash-matching fast path as well as on the general path —
because both construct the result through
`from_cats_and_rev_map_unchecked`, whose `bit_settings` starts at the
default. -/
theorem C10_to_enum_clears_fast_unique (c : CategoricalChunked)
    (categories : List String) (hash : Nat) :
    (to_enum c categories hash).flag_original = false := by
  cases hc : c.rev_map with
  | Local cats cur_hash =>
    by_cases hh : hash = cur_hash <;>
      simp [to_enum, hc, hh, to_enum_general, from_cats_and_rev_map_unchecked]
  | Global m cats u =>
    simp [to_enum, hc, to_enum_general, from_cats_and_rev_map_unchecked]

/-- C3: `to_global` while the string cache is disabled fails with the
cache-mode-mismatch condition for every column, Global or not, and returns
the cache untouched (the column, taken by shared reference, is never
mutated); with the cache enabled, an already-Global column is returned
unchanged. -/
theorem C3_to_global_cache_gate (cache : StringCache) (c : CategoricalChunked) :
    (cache.enabled = false →
      to_global cache c = (cache, .error PolarsError.StringCacheMismatch)) ∧
    (cache.enabled = true →
      ∀ m cats u, c.rev_map = .Global m cats u →
        to_global cache c = (cache, .ok c)) := by
  constructor
  · intro h
    simp [to_global, h]
  · intro h m cats u hrev
    simp [to_global, h, hrev]

/-- Witness for C3 at concrete inputs: a Local column under a disabled
cache, and a Global column under an enabled cache. -/
theorem C3_witness :
    to_global ⟨false, ["q"]⟩
        ⟨⟨"a", [[some 0]], .Not⟩, false, .Local ["x"] 5, .Physical, false⟩ =
      (⟨false, ["q"]⟩, .error PolarsError.StringCacheMismatch) ∧
    to_global ⟨true, []⟩
        ⟨⟨"a", [[some 0]], .Not⟩, false, .Global [(0, 0)] ["x"] 7, .Physical, false⟩ =
      (⟨true, []⟩,
       .ok ⟨⟨"a", [[some 0]], .Not⟩, false, .Global [(0, 0)] ["x"] 7, .Physical, false⟩) :=
  ⟨(C3_to_global_cache_gate ⟨false, ["q"]⟩ _).1 rfl,
   (C3_to_global_cache_gate ⟨true, []⟩ _).2 rfl [(0, 0)] ["x"] 7 rfl⟩

/-- C4 counterexample: on the hash-matching fast path NOT everything apart
from the dtype tag is unchanged — the fast-unique flag of this source is
set, but the result's is cleared, so the result differs from the source
with only its tag rewritten. -/
theorem C4_counterexample :
    to_enum ⟨⟨"a", [[some 0]], .Not⟩, false, .Local ["x"] 5, .Physical, true⟩ ["x"] 5 ≠
      { (⟨⟨"a", [[some 0]], .Not⟩, false, .Local ["x"] 5, .Physical, true⟩ :
          CategoricalChunked) with is_enum := true } := by
  decide

/-- C4 amended: when the source mapping is Local with hash equal to the
target hash, `to_enum` reuses the physical array, mapping and ordering
unchanged and rewrites the dtype tag to Enum — but the fast-unique flag is
reset to its default (false). -/
theorem C4_to_enum_fast_path (c : CategoricalChunked) (cats0 : List String)
    (h0 : Nat) (cats : List String) (hash : Nat)
    (hrev : c.rev_map = .Local cats0 h0) (hh : hash = h0) :
    to_enum c cats hash = { c with is_enum := true, flag_original := false } := by
  cases c with
  | mk phys ie rm od fl =>
    dsimp at hrev
    subst hrev
    subst hh
    simp [to_enum, from_cats_and_rev_map_unchecked, CategoricalChunked.get_ordering]

/-- Witness for C4 at a concrete hash-matching input. -/
theorem C4_witness :
    to_enum ⟨⟨"a", [[some 1, none]], .Ascending⟩, false, .Local ["x", "y"] 9,
        .Lexical, true⟩ ["z"] 9 =
      { (⟨⟨"a", [[some 1, none]], .Ascending⟩, false, .Local ["x", "y"] 9,
          .Lexical, true⟩ : CategoricalChunked) with
        is_enum := true, flag_original := false } :=
  C4_to_enum_fast_path _ ["x", "y"] 9 ["z"] 9 rfl rfl

/-- C6 counterexample: `to_local` on an Enum column is not the identity —
the dtype tag of the result is Categorical, not Enum. -/
theorem C6_counterexample :
    to_local ⟨⟨"a", [[some 0]], .Not⟩, true, .Local ["x"] 5, .Physical, false⟩ ≠
      ⟨⟨"a", [[some 0]], .Not⟩, true, .Local ["x"] 5, .Physical, false⟩ := by
  decide

/-- C6 amended: on a Local mapping, `to_local` of a Categorical column is
the identity (a cheap clone), while `to_local` of an Enum column keeps the
physical array, mapping, ordering and flag but rewrites the dtype tag from
Enum to Categorical. -/
theorem C6_to_local_local (c : CategoricalChunked) (cats : List String) (h : Nat)
    (hrev : c.rev_map = .Local cats h) :
    (c.is_enum = false → to_local c = c) ∧
    (c.is_enum = true → to_local c = { c with is_enum := false }) := by
  cases c with
  | mk phys ie rm od fl =>
    dsimp at hrev
    subst hrev
    constructor <;> intro hie <;> dsimp at hie <;> subst hie <;> simp [to_local]

/-- Witness for C6: a concrete Categorical column and a concrete Enum
column, both with a Local mapping. -/
theorem C6_witness :
    to_local ⟨⟨"a", [[some 0, none]], .Not⟩, false, .Local ["x"] 5, .Physical, true⟩ =
      ⟨⟨"a", [[some 0, none]], .Not⟩, false, .Local ["x"] 5, .Physical, true⟩ ∧
    to_local ⟨⟨"a", [[some 0, none]], .Not⟩, true, .Local ["x"] 5, .Physical, true⟩ =
      { (⟨⟨"a", [[some 0, none]], .Not⟩, true, .Local ["x"] 5, .Physical, true⟩ :
          CategoricalChunked) with is_enum := false } :=
  ⟨(C6_to_local_local _ ["x"] 5 rfl).1 rfl, (C6_to_local_local _ ["x"] 5 rfl).2 rfl⟩

/-- C8: the cast to UInt32 always succeeds and rebuilds an integer array
around the very same chunks (the zero-copy reinterpretation), so length,
values and null positions all coincide with the physical index array. -/
theorem C8_cast_u32 (cache : StringCache) (c : CategoricalChunked) :
    cast_with_options cache c .UInt32 =
      (cache, .ok (.u32 (UInt32Chunked.from_chunks c.physical.name c.physical.chunks))) ∧
    (UInt32Chunked.from_chunks c.physical.name c.physical.chunks).chunks =
      c.physical.chunks ∧
    (UInt32Chunked.from_chunks c.physical.name c.physical.chunks).values =
      c.physical.values ∧
    (UInt32Chunked.from_chunks c.physical.name c.physical.chunks).len =
      c.physical.len ∧
    (UInt32Chunked.from_chunks c.physical.name c.physical.chunks).null_count =
      c.physical.null_count :=
  ⟨rfl, rfl, rfl, rfl, rfl⟩

/-- C9 counterexample: casting to an Enum target with a Global mapping does
fail, but not with the message the claim states — the code's message reads
"can not cast to enum with global mapping". -/
theorem C9_counterexample :
    cast_with_options ⟨true, []⟩
        ⟨⟨"a", [[some 0]], .Not⟩, false, .Local ["x"] 5, .Physical, false⟩
        (.Enum (some (.Global [] [] 0)) .Physical) ≠
      (⟨true, []⟩,
       .error (.ComputeError "cannot cast to enum with a global mapping")) := by
  decide

/-- C9 amended: casting any categorical column to an Enum target with a
Global mapping fails with ComputeError "can not cast to enum with global
mapping", and to an Enum target without a mapping with ComputeError "can
not cast to enum without categories present"; the cache (and the column,
taken by shared reference) is left untouched. -/
theorem C9_enum_cast_errors (cache : StringCache) (c : CategoricalChunked)
    (m : List (Nat × Nat)) (cats : List String) (u : Nat)
    (ord : CategoricalOrdering) :
    cast_with_options cache c (.Enum (some (.Global m cats u)) ord) =
      (cache, .error (.ComputeError "can not cast to enum with global mapping")) ∧
    cast_with_options cache c (.Enum none ord) =
      (cache, .error (.ComputeError "can not cast to enum without categories present")) :=
  ⟨rfl, rfl⟩

/-- C5 counterexample: `set_ordering` to Lexical does NOT clear the
physical sorted flag — on this sorted column the flag survives. -/
theorem C5_counterexample :
    (set_ordering ⟨⟨"a", [[some 0, some 1]], .Ascending⟩, false, .Local ["x", "y"] 5,
        .Physical, false⟩ CategoricalOrdering.Lexical false).physical.sorted ≠
      IsSorted.Not := by
  decide

/-- C5 amended: `set_ordering` itself never touches the physical array (so
a carried sorted flag survives it); the clearing happens in the cast
dispatcher: casting to a Categorical target with Lexical ordering — on
every path except the Enum-source-with-absent-target-mapping one — returns
the column with ordering Lexical and the physical sorted flag cleared. -/
theorem C5_sorted_flag_behavior :
    (∀ (c : CategoricalChunked) (ord : CategoricalOrdering) (keep : Bool),
      (set_ordering c ord keep).physical = c.physical) ∧
    (∀ (cache : StringCache) (c : CategoricalChunked) (rm : Option RevMapping),
      c.is_enum = false ∨ rm ≠ none →
      cast_with_options cache c (.Categorical rm .Lexical) =
        (cache, .ok (.cat ⟨c.physical.set_sorted_flag .Not, c.is_enum, c.rev_map,
          .Lexical, c.flag_original⟩))) := by
  constructor
  · intro c ord keep
    cases keep <;> simp [set_ordering, CategoricalChunked.set_fast_unique]
  · intro cache c rm h
    have hcond : (c.is_enum && rm.isNone) = false := by
      rcases h with h | h
      · simp [h]
      · cases rm with
        | none => exact absurd rfl h
        | some r => simp
    simp [cast_with_options, hcond, set_ordering, CategoricalChunked.set_fast_unique,
      CategoricalChunked.uses_lexical_ordering, CategoricalChunked.get_ordering,
      UInt32Chunked.set_sorted_flag]

/-- Witness for C5: a concrete sorted Categorical column run through both
`set_ordering` and the Categorical-target cast with Lexical ordering. -/
theorem C5_witness :
    (set_ordering ⟨⟨"a", [[some 0]], .Ascending⟩, false, .Local ["x"] 5,
        .Physical, true⟩ CategoricalOrdering.Lexical true).physical =
      (⟨"a", [[some 0]], .Ascending⟩ : UInt32Chunked) ∧
    cast_with_options ⟨true, []⟩
        ⟨⟨"a", [[some 0]], .Ascending⟩, false, .Local ["x"] 5, .Physical, true⟩
        (.Categorical none .Lexical) =
      (⟨true, []⟩,
       .ok (.cat ⟨⟨"a", [[some 0]], .Not⟩, false, .Local ["x"] 5, .Lexical, true⟩)) :=
  ⟨C5_sorted_flag_behavior.1 _ CategoricalOrdering.Lexical true,
   C5_sorted_flag_behavior.2 ⟨true, []⟩ _ none (Or.inl rfl)⟩

/-- On a list without nulls, reading the raw values and wrapping each
resolved string back into `some` coincides with the null-aware map. -/
theorem no_null_loop_eq (f : Nat → String) :
    ∀ l : List (Option Nat), (l.filter (fun o => o.isNone)).length = 0 →
      (l.filterMap id).map (fun idx => (some (f idx) : Option String)) =
        l.map (Option.map f) := by
  intro l h
  induction l with
  | nil => rfl
  | cons o rest ih =>
    cases o with
    | none => simp [List.filter_cons] at h
    | some a =>
      rw [List.filter_cons] at h
      simp only [Option.isNone_some, Bool.false_eq_true, if_false] at h
      simp [ih h]

/-- C7: casting to String always succeeds with a string column carrying
the physical array's name in which every position is the physical code
resolved through the reverse mapping, nulls passed through; and on a
null-free physical array the null-free fast loop returns exactly what the
null-aware loop returns. -/
theorem C7_cast_string (cache : StringCache) (c : CategoricalChunked) :
    cast_with_options cache c .String =
      (cache, .ok (.str ⟨c.physical.name,
        c.physical.values.map (fun o => o.map c.rev_map.get)⟩)) ∧
    (c.physical.null_count = 0 →
      cast_string_no_null c = cast_string_nulls c) := by
  have key : c.physical.null_count = 0 →
      cast_string_no_null c = cast_string_nulls c := by
    intro h
    simp only [cast_string_no_null, cast_string_nulls, StringChunked.mk.injEq, true_and]
    exact no_null_loop_eq _ _ h
  refine ⟨?_, key⟩
  by_cases hn : c.physical.has_nulls
  · simp [cast_with_options, hn, cast_string_nulls]
  · have h0 : c.physical.null_count = 0 := by
      simp only [UInt32Chunked.has_nulls, bne_iff_ne, ne_eq, Decidable.not_not] at hn
      simpa using hn
    simp only [Bool.not_eq_true] at hn
    simp [cast_with_options, hn, key h0, cast_string_nulls]

/-- Witness for C7: a concrete null-free column, discharging the fast-loop
hypothesis. -/
theorem C7_witness :
    cast_with_options ⟨true, []⟩
        ⟨⟨"n", [[some 1, some 0]], .Not⟩, false, .Local ["u", "v"] 3, .Physical, false⟩
        .String =
      (⟨true, []⟩, .ok (.str ⟨"n", [some "v", some "u"]⟩)) ∧
    cast_string_no_null
        ⟨⟨"n", [[some 1, some 0]], .Not⟩, false, .Local ["u", "v"] 3, .Physical, false⟩ =
      cast_string_nulls
        ⟨⟨"n", [[some 1, some 0]], .Not⟩, false, .Local ["u", "v"] 3, .Physical, false⟩ := by
  constructor
  · have := (C7_cast_string ⟨true, []⟩
      ⟨⟨"n", [[some 1, some 0]], .Not⟩, false, .Local ["u", "v"] 3, .Physical, false⟩).1
    rw [this]
    rfl
  · exact (C7_cast_string ⟨true, []⟩
      ⟨⟨"n", [[some 1, some 0]], .Not⟩, false, .Local ["u", "v"] 3, .Physical, false⟩).2 rfl

/-- A hash-map lookup misses exactly when no binding carries the key. -/
theorem hmGet_eq_none_iff {α β : Type} [DecidableEq α] (l : List (α × β)) (k : α) :
    hmGet l k = none ↔ ∀ p ∈ l, p.1 ≠ k := by
  induction l with
  | nil => simp [hmGet]
  | cons p rest ih =>
    cases hr : hmGet rest k with
    | some v =>
      simp only [hmGet, hr]
      constructor
      · intro h
        cases h
      · intro h
        exfalso
        have hn : hmGet rest k = none :=
          ih.2 (fun q hq => h q (List.mem_cons_of_mem _ hq))
        rw [hr] at hn
        cases hn
    | none =>
      simp only [hmGet, hr]
      by_cases hpk : p.1 = k
      · rw [if_pos hpk]
        constructor
        · intro h
          cases h
        · intro h
          exact absurd hpk (h p (List.mem_cons_self _ _))
      · rw [if_neg hpk]
        constructor
        · intro _ q hq
          rcases List.mem_cons.mp hq with rfl | hq'
          · exact hpk
          · exact (ih.1 hr) q hq'
        · intro _
          rfl

/-- With pairwise-distinct keys, a hash-map lookup returns the bound value. -/
theorem hmGet_eq_some_of_nodup {α β : Type} [DecidableEq α] :
    ∀ (l : List (α × β)) (k : α) (v : β),
      (l.map Prod.fst).Nodup → (k, v) ∈ l → hmGet l k = some v := by
  intro l
  induction l with
  | nil =>
    intro k v _ hm
    cases hm
  | cons p rest ih =>
    intro k v hnd hm
    rw [List.map_cons, List.nodup_cons] at hnd
    rcases List.mem_cons.mp hm with heq | hm'
    · subst heq
      have hrn : hmGet rest k = none := by
        rw [hmGet_eq_none_iff]
        intro q hq hqk
        have hmem : q.1 ∈ rest.map Prod.fst := List.mem_map_of_mem Prod.fst hq
        rw [hqk] at hmem
        exact hnd.1 hmem
      simp [hmGet, hrn]
    · have := ih k v hnd.2 hm'
      simp [hmGet, this]

/-- Looking a string up in the map built by zipping the categories with
their positions: its index when present, a miss otherwise. -/
theorem hmGet_zip_range (cats : List String) (hnd : cats.Nodup) (s : String) :
    hmGet (List.zip cats (List.range cats.length)) s =
      if s ∈ cats then some (cats.indexOf s) else none := by
  by_cases hs : s ∈ cats
  · rw [if_pos hs]
    apply hmGet_eq_some_of_nodup
    · rw [List.map_fst_zip cats _ (by simp)]
      exact hnd
    · have hlt : cats.indexOf s < cats.length := List.indexOf_lt_length.mpr hs
      have hz : cats.indexOf s < (List.zip cats (List.range cats.length)).length := by
        simpa [List.length_zip] using hlt
      have hg : (List.zip cats (List.range cats.length))[cats.indexOf s] =
          (s, cats.indexOf s) := by
        rw [List.getElem_zip]
        refine Prod.ext ?_ ?_
        · exact List.getElem_indexOf hlt
        · exact List.getElem_range _ _
      rw [← hg]
      exact List.getElem_mem hz
  · rw [if_neg hs, hmGet_eq_none_iff]
    intro q hq hqs
    apply hs
    rw [← hqs]
    have hmem := List.mem_map_of_mem Prod.fst hq
    rwa [List.map_fst_zip cats _ (by simp)] at hmem

/-- On a duplicate-free list, the index of the element at `v` is `v`. -/
theorem indexOf_getElem_self {α : Type} [DecidableEq α] (l : List α)
    (hnd : l.Nodup) (v : Nat) (hv : v < l.length) : l.indexOf l[v] = v := by
  have hm : l[v] ∈ l := List.getElem_mem hv
  have hlt := List.indexOf_lt_length.mpr hm
  exact hnd.getElem_inj_iff.mp (List.getElem_indexOf hlt)

/-- Filtering-and-mapping over an enumeration with a function of the value
alone forgets the indices. -/
theorem filterMap_enum_snd {α β : Type} (g : α → Option β) (l : List α) :
    l.enum.filterMap (fun p => g p.2) = l.filterMap g := by
  have h := List.filterMap_map Prod.snd g l.enum
  rw [List.enum_map_snd] at h
  exact h.symm

/-- Characterization of the composed old-code → new-code map of the
general `to_enum` path: old code `v` finds the position of its category in
the target categories, or misses when the category is absent there. -/
theorem hmGet_enum_compose (oldCats cats : List String) (v : Nat)
    (hnd_old : oldCats.Nodup) (hnd_new : cats.Nodup) (hv : v < oldCats.length) :
    hmGet (cats.enum.filterMap (fun p =>
        (hmGet (List.zip oldCats (List.range oldCats.length)) p.2).map
          (fun old_idx => (old_idx, p.1)))) v =
      if oldCats[v] ∈ cats then some (cats.indexOf oldCats[v]) else none := by
  by_cases hmem : oldCats[v] ∈ cats
  · rw [if_pos hmem]
    apply hmGet_eq_some_of_nodup
    · rw [List.map_filterMap]
      have hf : (fun p : Nat × String =>
          Option.map Prod.fst
            ((hmGet (List.zip oldCats (List.range oldCats.length)) p.2).map
              (fun old_idx => (old_idx, p.1)))) =
          (fun p : Nat × String =>
            hmGet (List.zip oldCats (List.range oldCats.length)) p.2) := by
        funext p
        cases hmGet (List.zip oldCats (List.range oldCats.length)) p.2 <;> rfl
      rw [hf, filterMap_enum_snd]
      apply List.Nodup.filterMap _ hnd_new
      intro a a' b hb hb'
      rw [Option.mem_def, hmGet_zip_range oldCats hnd_old] at hb hb'
      by_cases ha : a ∈ oldCats
      · rw [if_pos ha] at hb
        by_cases ha' : a' ∈ oldCats
        · rw [if_pos ha'] at hb'
          have hbv : oldCats.indexOf a = b := by injection hb
          have hbv' : oldCats.indexOf a' = b := by injection hb'
          exact (List.indexOf_inj ha ha').mp (hbv.trans hbv'.symm)
        · rw [if_neg ha'] at hb'
          cases hb'
      · rw [if_neg ha] at hb
        cases hb
    · rw [List.mem_filterMap]
      refine ⟨(cats.indexOf oldCats[v], oldCats[v]), ?_, ?_⟩
      · rw [List.mk_mem_enum_iff_getElem?,
          List.getElem?_eq_getElem (List.indexOf_lt_length.mpr hmem)]
        rw [List.getElem_indexOf]
      · rw [hmGet_zip_range oldCats hnd_old, if_pos (List.getElem_mem hv),
          indexOf_getElem_self oldCats hnd_old v hv]
        rfl
  · rw [if_neg hmem, hmGet_eq_none_iff]
    intro q hq hqv
    rw [List.mem_filterMap] at hq
    obtain ⟨a, ha, hfa⟩ := hq
    rw [hmGet_zip_range oldCats hnd_old] at hfa
    by_cases hmem2 : a.2 ∈ oldCats
    · rw [if_pos hmem2, Option.map_some'] at hfa
      have hq1 : q.1 = oldCats.indexOf a.2 := by
        injection hfa with h
        rw [← h]
      have hlt := List.indexOf_lt_length.mpr hmem2
      have hiv : List.indexOf a.2 oldCats = v := hq1.symm.trans hqv
      subst hiv
      have hva : oldCats[List.indexOf a.2 oldCats] = a.2 := List.getElem_indexOf hlt
      apply hmem
      rw [hva]
      have hsnd := List.mem_map_of_mem Prod.snd ha
      rwa [List.enum_map_snd] at hsnd
    · rw [if_neg hmem2] at hfa
      cases hfa

/-- C2: on the general path (Local source whose hash differs from the
target hash), `to_enum` remaps every physical index through the
composition old-category → old-code → new-code: a position is null exactly
when the source is null there or the source category does not occur in the
target categories, and otherwise holds the target position of that
category; the result's mapping is `Local(target_categories, target_hash)`. -/
theorem C2_to_enum_general_path (c : CategoricalChunked) (oldCats : List String)
    (oldHash : Nat) (cats : List String) (hash : Nat)
    (hrev : c.rev_map = .Local oldCats oldHash) (hne : hash ≠ oldHash)
    (hnd_old : oldCats.Nodup) (hnd_new : cats.Nodup)
    (hbound : ∀ v, some v ∈ c.physical.values → v < oldCats.length) :
    (to_enum c cats hash).rev_map = .Local cats hash ∧
    (to_enum c cats hash).physical.values =
      c.physical.values.map (fun o => o.bind (fun v =>
        if oldCats.getD v "" ∈ cats then some (cats.indexOf (oldCats.getD v ""))
        else none)) := by
  have hgen : to_enum c cats hash = to_enum_general c cats hash := by
    simp [to_enum, hrev, hne]
  rw [hgen]
  constructor
  · rfl
  · show (UInt32Chunked.from_iter _).values = _
    simp only [to_enum_general, UInt32Chunked.from_iter, UInt32Chunked.values,
      List.flatten, List.append_nil, hrev, RevMapping.get_categories]
    apply List.map_congr_left
    intro o ho
    cases o with
    | none => rfl
    | some v =>
      have hv := hbound v ho
      simp only [Option.bind]
      rw [hmGet_enum_compose oldCats cats v hnd_old hnd_new hv,
        List.getD_eq_getElem oldCats "" hv]

/-- Witness for C2 at a concrete input: categories `["a","b"]`, values
`[a, b, null]`, target categories `["b","c"]` — `a` drops to null, `b`
lands at target position 0, null passes through. -/
theorem C2_witness :
    (to_enum ⟨⟨"a", [[some 0, some 1, none]], .Not⟩, false, .Local ["a", "b"] 1,
        .Physical, false⟩ ["b", "c"] 2).rev_map = RevMapping.Local ["b", "c"] 2 ∧
    (to_enum ⟨⟨"a", [[some 0, some 1, none]], .Not⟩, false, .Local ["a", "b"] 1,
        .Physical, false⟩ ["b", "c"] 2).physical.values = [none, some 0, none] := by
  have h := C2_to_enum_general_path
    ⟨⟨"a", [[some 0, some 1, none]], .Not⟩, false, .Local ["a", "b"] 1,
      .Physical, false⟩ ["a", "b"] 1 ["b", "c"] 2 rfl (by decide) (by decide) (by decide)
    (by
      intro v hv
      simp only [UInt32Chunked.values, List.flatten, List.append_nil, List.mem_cons,
        List.not_mem_nil, or_false, Option.some.injEq, reduceCtorEq] at hv
      rcases hv with rfl | rfl
      · decide
      · decide)
  refine ⟨h.1, ?_⟩
  rw [h.2]
  decide

/-- Interning only ever appends: strings already present stay present. -/
theorem mem_internList_left {a : String} :
    ∀ (cats l : List String), a ∈ l → a ∈ internList l cats := by
  intro cats
  induction cats with
  | nil =>
    intro l hl
    exact hl
  | cons s rest ih =>
    intro l hl
    show a ∈ List.foldl _ _ _
    rw [List.foldl_cons]
    apply ih
    by_cases hs : s ∈ l
    · rw [if_pos hs]
      exact hl
    · rw [if_neg hs]
      exact List.mem_append_left _ hl

/-- Every interned string ends up in the cache list. -/
theorem mem_internList_right {a : String} :
    ∀ (cats l : List String), a ∈ cats → a ∈ internList l cats := by
  intro cats
  induction cats with
  | nil =>
    intro l hl
    cases hl
  | cons s rest ih =>
    intro l hl
    show a ∈ List.foldl _ _ _
    rw [List.foldl_cons]
    rcases List.mem_cons.mp hl with rfl | hrest
    · apply mem_internList_left
      by_cases hs : a ∈ l
      · rw [if_pos hs]
        exact hs
      · rw [if_neg hs]
        exact List.mem_append_right _ (List.mem_singleton.mpr rfl)
    · exact ih _ hrest

/-- Mapping over an enumeration with a function of the value alone forgets
the indices. -/
theorem map_enum_snd {α β : Type} (g : α → β) (l : List α) :
    l.enum.map (fun p => g p.2) = l.map g := by
  have h := List.map_map g Prod.snd l.enum
  rw [List.enum_map_snd] at h
  exact h.symm

/-- Looking up a local position in the inverted code map recovers the cache
code of the category at that position. -/
theorem hmGet_inv_keys (l cats : List String) (v : Nat) (hv : v < cats.length) :
    hmGet ((cats.enum.map (fun p : Nat × String => (l.indexOf p.2, p.1))).map
      (fun p => (p.2, p.1))) v = some (l.indexOf cats[v]) := by
  rw [List.map_map]
  apply hmGet_eq_some_of_nodup
  · rw [List.map_map]
    have hf : (Prod.fst ∘ ((fun p : Nat × Nat => (p.2, p.1)) ∘
        (fun p : Nat × String => (l.indexOf p.2, p.1)))) = Prod.fst := by
      funext p
      rfl
    rw [hf, List.enum_map_fst]
    exact List.nodup_range _
  · have henum : (v, cats[v]) ∈ cats.enum :=
      List.mk_mem_enum_iff_getElem?.mpr (List.getElem?_eq_getElem hv)
    exact List.mem_map_of_mem _ henum

/-- Looking up the cache code of the category at position `v` in
`code_to_local_index` recovers `v` (categories duplicate-free, codes
assigned by the interner are injective on them). -/
theorem hmGet_code_map (interned cats : List String) (hnd : cats.Nodup) (v : Nat)
    (hv : v < cats.length) :
    hmGet (cats.enum.map (fun p : Nat × String =>
        ((internList interned cats).indexOf p.2, p.1)))
      ((internList interned cats).indexOf cats[v]) = some v := by
  apply hmGet_eq_some_of_nodup
  · rw [List.map_map]
    have hf : (Prod.fst ∘ (fun p : Nat × String =>
        ((internList interned cats).indexOf p.2, p.1))) =
        (fun p : Nat × String => (internList interned cats).indexOf p.2) := by
      funext p
      rfl
    rw [hf, map_enum_snd (fun s => List.indexOf s (internList interned cats)) cats]
    apply List.Nodup.map_on _ hnd
    intro x hx y hy hxy
    exact (List.indexOf_inj (mem_internList_right cats interned hx)
      (mem_internList_right cats interned hy)).mp hxy
  · have henum : (v, cats[v]) ∈ cats.enum :=
      List.mk_mem_enum_iff_getElem?.mpr (List.getElem?_eq_getElem hv)
    exact List.mem_map_of_mem _ henum

/-- `apply` maps the function over the flattened values, nulls untouched. -/
theorem apply_values (a : UInt32Chunked) (f : Nat → Nat) :
    (a.apply f).values = a.values.map (Option.map f) := by
  simp [UInt32Chunked.apply, UInt32Chunked.values, List.map_flatten]

/-- Explicit shape of the spec-modelled `from_keys_and_values_global`. -/
theorem from_keys_global_eq (cache : StringCache) (c : CategoricalChunked)
    (cats : List String) :
    from_keys_and_values_global cache c cats =
      (⟨cache.enabled, internList cache.interned cats⟩,
       { physical := c.physical.apply (fun v =>
           (hmGet ((cats.enum.map (fun p : Nat × String =>
               ((internList cache.interned cats).indexOf p.2, p.1))).map
             (fun p => (p.2, p.1))) v).getD 0),
         is_enum := false,
         rev_map := RevMapping.Global
           (cats.enum.map (fun p : Nat × String =>
             ((internList cache.interned cats).indexOf p.2, p.1))) cats
           (internList cache.interned cats).length,
         ord := c.ord,
         flag_original := false }) := rfl

/-- Explicit shape of `to_local` on a Global column. -/
theorem to_local_global_eq (c : CategoricalChunked) (pm : List (Nat × Nat))
    (cats : List String) (u : Nat) (hrev : c.rev_map = .Global pm cats u) :
    to_local c =
      { physical := c.physical.apply (fun v => (hmGet pm v).getD 0),
        is_enum := false,
        rev_map := RevMapping.Local cats (catHash cats),
        ord := c.ord,
        flag_original := c._can_fast_unique } := by
  cases c with
  | mk phys ie rm od fl =>
    dsimp at hrev
    subst hrev
    simp [to_local, RevMapping.build_local, from_cats_and_rev_map_unchecked,
      CategoricalChunked.set_fast_unique, CategoricalChunked.get_ordering]

/-- `to_local` on a Local column keeps physical array and mapping. -/
theorem to_local_local_parts (c : CategoricalChunked) (cats : List String) (h : Nat)
    (hrev : c.rev_map = .Local cats h) :
    (to_local c).physical = c.physical ∧ (to_local c).rev_map = c.rev_map := by
  cases hie : c.is_enum <;> simp [to_local, hrev, hie]

/-- `to_local` on a Local column decodes to the same strings as the column
itself. -/
theorem iter_str_to_local_local (c : CategoricalChunked) (cats : List String)
    (h : Nat) (hrev : c.rev_map = .Local cats h) :
    iter_str (to_local c) = iter_str c := by
  obtain ⟨h1, h2⟩ := to_local_local_parts c cats h hrev
  unfold iter_str
  rw [h1, h2]

/-- C1: with the cache enabled, `to_global` on a Local column succeeds, and
`to_local(to_global(x))` decodes — position by position, through
`iter_str` — to the same optional strings as `to_local(x)`, even though
the physical codes may differ. -/
theorem C1_global_round_trip (cache : StringCache) (c : CategoricalChunked)
    (cats : List String) (h : Nat)
    (hen : cache.enabled = true) (hrev : c.rev_map = .Local cats h)
    (hnd : cats.Nodup)
    (hbound : ∀ v, some v ∈ c.physical.values → v < cats.length) :
    ∃ cache2 y, to_global cache c = (cache2, .ok y) ∧
      iter_str (to_local y) = iter_str (to_local c) := by
  refine ⟨(from_keys_and_values_global cache c cats).1,
    (from_keys_and_values_global cache c cats).2, ?_, ?_⟩
  · simp [to_global, hen, hrev]
  · rw [from_keys_global_eq]
    have hloc := iter_str_to_local_local c cats h hrev
    rw [hloc]
    rw [to_local_global_eq _ _ cats ((internList cache.interned cats).length) rfl]
    unfold iter_str
    rw [hrev]
    show ((_ : UInt32Chunked).apply _).values.map _ = _
    rw [apply_values, apply_values, List.map_map, List.map_map]
    apply List.map_congr_left
    intro o ho
    cases o with
    | none => rfl
    | some v =>
      have hv := hbound v ho
      simp only [Function.comp, Option.map_some']
      rw [hmGet_inv_keys (internList cache.interned cats) cats v hv]
      simp only [Option.getD_some]
      rw [hmGet_code_map cache.interned cats hnd v hv]
      rfl

/-- Witness for C1: a concrete Local column with a null and the categories
`["foo","bar"]`, under an enabled cache that already holds `"bar"` (so the
cache codes differ from the local positions). -/
theorem C1_witness :
    ∃ cache2 y,
      to_global ⟨true, ["z", "bar"]⟩
          ⟨⟨"a", [[some 0, none, some 1]], .Not⟩, false, .Local ["foo", "bar"] 7,
            .Physical, true⟩ = (cache2, .ok y) ∧
      iter_str (to_local y) =
        iter_str (to_local ⟨⟨"a", [[some 0, none, some 1]], .Not⟩, false,
          .Local ["foo", "bar"] 7, .Physical, true⟩) :=
  C1_global_round_trip ⟨true, ["z", "bar"]⟩ _ ["foo", "bar"] 7 rfl rfl (by decide)
    (by
      intro v hv
      simp only [UInt32Chunked.values, List.flatten, List.append_nil, List.mem_cons,
        List.not_mem_nil, or_false, false_or, Option.some.injEq, reduceCtorEq] at hv
      rcases hv with rfl | rfl
      · decide
      · decide)

end PolarsCat
